import Mathlib

/-!
Verification of the repo-resolver core of `src/prompt-builder.js`
(normalizeRepoUrl, extractRepoName, cache lookup/store, scanForRepo/walkDir,
resolveRepo) against its natural-language specification.

JavaScript strings are modelled as `List Char`.  The regular expressions of
the source are unfolded into explicit prefix/split/takeWhile operations,
matching the anchored regexes `^git@ssh\.dev\.azure\.com:v3\/(.+)`,
`^git@([^:]+):(.+)`, `^https?:\/\/`, `\.git$` and `\/+$` exactly
(in JavaScript `.` does not match line terminators, and all of these
regexes are case-sensitive).  `String.prototype.toLowerCase` is modelled on
the ASCII fragment (the inputs of interest are ASCII), and
`String.prototype.trim` strips the JS WhiteSpace/LineTerminator set from
both ends.
-/

namespace RepoResolver

/-- JavaScript string, as a list of characters. -/
abbrev JStr := List Char

/-- Embed a Lean string literal as a `JStr`. -/
def str (s : String) : JStr := s.data

/-- JS line terminators (not matched by `.` in a regex). -/
def isLineTerm (c : Char) : Bool :=
  c == '\n' || c == '\r' || c == ' ' || c == ' '

/-- The white space characters removed by `String.prototype.trim`. -/
def isJsSpace (c : Char) : Bool :=
  c == ' ' || c == '\t' || c == '\n' || c == '\r' || c == '\x0b' || c == '\x0c' ||
  c == ' ' || c == ' ' || c == ' ' || c == ' ' || c == ' ' ||
  c == ' ' || c == ' ' || c == ' ' || c == ' ' || c == ' ' ||
  c == ' ' || c == ' ' || c == ' ' || c == ' ' || c == ' ' ||
  c == ' ' || c == ' ' || c == '　' || c == '﻿'

/-- `String.prototype.toLowerCase`, on the ASCII letters. -/
def lowerChar (c : Char) : Char :=
  if c == 'A' then 'a' else if c == 'B' then 'b' else if c == 'C' then 'c' else
  if c == 'D' then 'd' else if c == 'E' then 'e' else if c == 'F' then 'f' else
  if c == 'G' then 'g' else if c == 'H' then 'h' else if c == 'I' then 'i' else
  if c == 'J' then 'j' else if c == 'K' then 'k' else if c == 'L' then 'l' else
  if c == 'M' then 'm' else if c == 'N' then 'n' else if c == 'O' then 'o' else
  if c == 'P' then 'p' else if c == 'Q' then 'q' else if c == 'R' then 'r' else
  if c == 'S' then 's' else if c == 'T' then 't' else if c == 'U' then 'u' else
  if c == 'V' then 'v' else if c == 'W' then 'w' else if c == 'X' then 'x' else
  if c == 'Y' then 'y' else if c == 'Z' then 'z' else c

/-- `s.toLowerCase()`. -/
def jsToLower (s : JStr) : JStr := s.map lowerChar

/-- `s.trim()`: drop JS white space from both ends. -/
def jsTrim (s : JStr) : JStr :=
  ((s.dropWhile isJsSpace).reverse.dropWhile isJsSpace).reverse

/-- If `p` is a prefix of `s`, return the remainder of `s` after `p`. -/
def dropStart? : JStr → JStr → Option JStr
  | [], s => some s
  | _ :: _, [] => none
  | p :: ps, c :: cs => if c = p then dropStart? ps cs else none

/-- Split a string at its first `':'` (the behaviour of `([^:]+):` with a
preceding anchor: the group is forced to end at the first colon). -/
def splitColon? : JStr → Option (JStr × JStr)
  | [] => none
  | c :: cs =>
    if c = ':' then some ([], cs)
    else
      match splitColon? cs with
      | some (h, t) => some (c :: h, t)
      | none => none

/-- Greedy `(.+)` capture at the current position: the maximal run of
non-line-terminator characters (must be non-empty for the regex to match). -/
def takeLine (s : JStr) : JStr := s.takeWhile fun c => !isLineTerm c

/-- Match of `/^git@ssh\.dev\.azure\.com:v3\/(.+)/`, returning the capture. -/
def azureMatch (u : JStr) : Option JStr :=
  match dropStart? (str "git@ssh.dev.azure.com:v3/") u with
  | none => none
  | some rest =>
    let cap := takeLine rest
    if cap = [] then none else some cap

/-- Match of `/^git@([^:]+):(.+)/`, returning the two captures. -/
def sshMatch (u : JStr) : Option (JStr × JStr) :=
  match dropStart? (str "git@") u with
  | none => none
  | some rest =>
    match splitColon? rest with
    | none => none
    | some (host, after) =>
      if host = [] then none
      else
        let cap := takeLine after
        if cap = [] then none else some (host, cap)

/-- `u.replace(/^https?:\/\//, '')`. -/
def stripScheme (u : JStr) : JStr :=
  match dropStart? (str "https://") u with
  | some r => r
  | none =>
    match dropStart? (str "http://") u with
    | some r => r
    | none => u

/-- `u.replace(/\.git$/, '')`: strip one trailing `.git` (matched on the
reversed string, where the suffix becomes the prefix `tig.`). -/
def stripGitSuffix (u : JStr) : JStr :=
  match dropStart? (str "tig.") u.reverse with
  | some rest => rest.reverse
  | none => u

/-- `u.replace(/\/+$/, '')`: strip all trailing slashes. -/
def stripTrailingSlashes (u : JStr) : JStr :=
  (u.reverse.dropWhile (· == '/')).reverse

/-- `normalizeRepoUrl` from `prompt-builder.js`: falsy input gives `null`;
otherwise try the Azure SSH regex, then the generic-SSH regex, then strip a
scheme, a trailing `.git`, trailing slashes, and lowercase. -/
def normalizeRepoUrl (url : JStr) : Option JStr :=
  if url = [] then none
  else
    let u := jsTrim url
    match azureMatch u with
    | some cap => some (stripGitSuffix (jsToLower (str "dev.azure.com/" ++ cap)))
    | none =>
      match sshMatch u with
      | some (host, cap) => some (stripGitSuffix (jsToLower (host ++ '/' :: cap)))
      | none => some (jsToLower (stripTrailingSlashes (stripGitSuffix (stripScheme u))))

/-- `extractRepoName`: the substring after the final `/` (JS
`split('/')` and last element); `null` on falsy input. -/
def extractRepoName (normalizedUrl : JStr) : Option JStr :=
  if normalizedUrl = [] then none
  else some (normalizedUrl.reverse.takeWhile (· ≠ '/')).reverse

/-! ## Filesystem scan (`SKIP_DIRS`, `walkDir`, `scanForRepo`)

The directory tree visible to `fs.readdirSync` is a finitely-branching tree
of named entries; `fs.existsSync` (used only for the `.git` probe and for
cache-path liveness) and `getRepoRemotes` (a `git remote -v` subprocess,
whose failures yield `[]`) are separate oracles keyed by path, exactly as in
the source, where they are independent system calls.  A directory that
cannot be read (the `try/catch` around `readdirSync`) carries
`readable = false`.  `path.join` is modelled as `/`-concatenation. -/

/-- A file-system node as seen by `readdirSync(..., { withFileTypes: true })`. -/
inductive Fs where
  | file (name : JStr) : Fs
  | dir (name : JStr) (readable : Bool) (children : List Fs) : Fs
deriving Repr

/-- The `SKIP_DIRS` set of `prompt-builder.js`. -/
def SKIP_DIRS : List JStr :=
  [str ".git", str "node_modules", str "dist", str ".bare", str "__pycache__",
   str "vendor", str ".venv", str "build", str ".cache", str ".next", str ".turbo"]

/-- `path.join(dir, name)` for the clean relative names produced by the walk. -/
def pjoin (dir name : JStr) : JStr := dir ++ '/' :: name

mutual

/-- `walkDir(dir, repoName, normalizedUrl, depth, maxDepth)`:
depth cut-off, then enumerate the children of the directory (`none`
models the `try/catch` around `readdirSync`: a file or an unreadable
directory yields `null`). -/
def walkDir (pe : JStr → Bool) (ra : JStr → List JStr) (t : Fs)
    (dirPath repoName normalizedUrl : JStr) (depth maxDepth : Int) : Option JStr :=
  if depth > maxDepth then none
  else
    match t with
    | .file _ => none
    | .dir _ readable children =>
      if readable then
        walkEntries pe ra children dirPath repoName normalizedUrl depth maxDepth
      else none

/-- The `for (const entry of entries)` loop of `walkDir`: skip files and
`SKIP_DIRS`; on a case-insensitive name match with a `.git` entry and a
matching normalized remote return the joined path; otherwise recurse at
`depth + 1`, and on failure continue with the remaining entries. -/
def walkEntries (pe : JStr → Bool) (ra : JStr → List JStr) (es : List Fs)
    (dirPath repoName normalizedUrl : JStr) (depth maxDepth : Int) : Option JStr :=
  match es with
  | [] => none
  | e :: rest =>
    match e with
    | .file _ => walkEntries pe ra rest dirPath repoName normalizedUrl depth maxDepth
    | .dir name _ _ =>
      if SKIP_DIRS.contains name then
        walkEntries pe ra rest dirPath repoName normalizedUrl depth maxDepth
      else
        let full := pjoin dirPath name
        if jsToLower name = repoName ∧ pe (pjoin full (str ".git")) = true ∧
            ((ra full).map normalizeRepoUrl).contains (some normalizedUrl) = true then
          some full
        else
          match walkDir pe ra e full repoName normalizedUrl (depth + 1) maxDepth with
          | some r => some r
          | none => walkEntries pe ra rest dirPath repoName normalizedUrl depth maxDepth

end

/-- `raw.replace(/^~/, process.env.HOME)`. -/
def expandTilde (home raw : JStr) : JStr :=
  match raw with
  | '~' :: rest => home ++ rest
  | _ => raw

/-- `scanForRepo(normalizedUrl, searchPaths, maxDepth)`: derive the repo
name (bailing out on a falsy one), then walk each search root in order,
first match wins.  `fsAt` gives the tree rooted at an expanded base path. -/
def scanForRepo (pe : JStr → Bool) (ra : JStr → List JStr) (home : JStr)
    (normalizedUrl : JStr) (searchPaths : List JStr) (maxDepth : Int)
    (fsAt : JStr → Fs) : Option JStr :=
  match extractRepoName normalizedUrl with
  | none => none
  | some repoName =>
    if repoName = [] then none
    else
      searchPaths.findSome? fun raw =>
        let base := expandTilde home raw
        walkDir pe ra (fsAt base) base repoName normalizedUrl 0 maxDepth

/-! ## Cache store and resolver orchestrator

The persisted cache file is modelled by its parsed contents, an
insertion-ordered association list (`loadCache` returns `{}` — here `[]` —
on a missing or corrupt file, so every reachable state is some such list).
`saveCache` is the one operation in the resolver that can throw
(`fs.writeFileSync`; nothing catches it): `cacheWritable = false` models a
failing write, and `Except Unit` carries the propagated exception.
`new Date().toISOString()` is the ambient `now` string, and `loadConfig`'s
result is the `Config` value (missing keys are `none`; a corrupt config
file is `⟨none, none⟩`). -/

/-- A cache entry `{path, lastUsed}`. -/
structure CEntry where
  path : JStr
  lastUsed : JStr
deriving DecidableEq, Repr

/-- The parsed contents of `repo-cache.json`. -/
abbrev Cache := List (JStr × CEntry)

/-- Key lookup in the JS object. -/
def lookupA (c : Cache) (k : JStr) : Option CEntry :=
  match c with
  | [] => none
  | (k', v) :: t => if k' = k then some v else lookupA t k

/-- `delete cache[k]`. -/
def eraseA (c : Cache) (k : JStr) : Cache :=
  c.filter fun p => ¬ p.1 = k

/-- `cache[k] = v` (update in place, else append). -/
def updateA (c : Cache) (k : JStr) (v : CEntry) : Cache :=
  match c with
  | [] => [(k, v)]
  | (k', v') :: t => if k' = k then (k, v) :: t else (k', v') :: updateA t k v

/-- `saveCache`: `fs.writeFileSync`, which throws when the write fails. -/
def saveCache (writable : Bool) (c : Cache) : Except Unit Cache :=
  if writable then .ok c else .error ()

/-- The two external configuration settings read by `loadConfig`:
`GIT_SEARCH_PATHS` and `GIT_SEARCH_MAX_DEPTH` (absent keys are `none`). -/
structure Config where
  gitSearchPaths : Option (List JStr)
  gitSearchMaxDepth : Option Int
deriving DecidableEq, Repr

/-- The ambient state a resolver call runs against. -/
structure World where
  home : JStr
  cache : Cache
  cacheWritable : Bool
  pathExists : JStr → Bool
  remotesAt : JStr → List JStr
  fsAt : JStr → Fs
  config : Config
  now : JStr

/-- `cacheLookup(normalizedUrl)`: load the cache, and on a present entry run
the two-part liveness check (path existence, then re-read remotes each
normalized and compared with the key), evicting and re-persisting on
failure, refreshing `lastUsed` and re-persisting on success.  The result
pairs the returned value with the persisted cache contents. -/
def cacheLookup (w : World) (normalizedUrl : JStr) : Except Unit (Option JStr × Cache) :=
  let cache := w.cache
  match lookupA cache normalizedUrl with
  | none => .ok (none, cache)
  | some entry =>
    if w.pathExists entry.path = false then
      match saveCache w.cacheWritable (eraseA cache normalizedUrl) with
      | .error e => .error e
      | .ok c => .ok (none, c)
    else if ((w.remotesAt entry.path).map normalizeRepoUrl).contains (some normalizedUrl) = false then
      match saveCache w.cacheWritable (eraseA cache normalizedUrl) with
      | .error e => .error e
      | .ok c => .ok (none, c)
    else
      match saveCache w.cacheWritable (updateA cache normalizedUrl ⟨entry.path, w.now⟩) with
      | .error e => .error e
      | .ok c => .ok (some entry.path, c)

/-- `cacheStore(normalizedUrl, resolvedPath)` acting on the persisted cache
contents `c`. -/
def cacheStore (writable : Bool) (c : Cache) (normalizedUrl resolvedPath now : JStr) :
    Except Unit Cache :=
  saveCache writable (updateA c normalizedUrl ⟨resolvedPath, now⟩)

/-- The scan-and-store tail of `resolveRepo` (steps 2 and 3): load the
configuration, scan, and cache a truthy result. -/
def resolveScan (w : World) (c1 : Cache) (normalized : JStr) :
    Except Unit (Option JStr × Cache) :=
  let searchPaths :=
    match w.config.gitSearchPaths with
    | some l => l
    | none => [str "~/dd"]
  let maxDepth : Int :=
    match w.config.gitSearchMaxDepth with
    | some d => if d = 0 then 4 else d
    | none => 4
  match scanForRepo w.pathExists w.remotesAt w.home normalized searchPaths maxDepth w.fsAt with
  | some found =>
    if found = [] then .ok (none, c1)
    else
      match cacheStore w.cacheWritable c1 normalized found w.now with
      | .error e => .error e
      | .ok c2 => .ok (some found, c2)
  | none => .ok (none, c1)

/-- `resolveRepo(repoUrl)`: normalize (a falsy result is rejected), cache
lookup (a truthy hit returns immediately), otherwise scan and store.  The
result pairs the returned value with the persisted cache contents; `.error`
is a propagated exception. -/
def resolveRepo (w : World) (repoUrl : JStr) : Except Unit (Option JStr × Cache) :=
  match normalizeRepoUrl repoUrl with
  | none => .ok (none, w.cache)
  | some normalized =>
    if normalized = [] then .ok (none, w.cache)
    else
      match cacheLookup w normalized with
      | .error e => .error e
      | .ok (some p, c1) =>
        if p = [] then resolveScan w c1 normalized else .ok (some p, c1)
      | .ok (none, c1) => resolveScan w c1 normalized

/-- Whether an exception-carrying resolver result is a normal return. -/
def exceptOk : Except Unit (Option JStr × Cache) → Bool
  | .ok _ => true
  | .error _ => false

/-! ## Concrete fixtures (used by witnesses and counterexamples) -/

/-- A search root `r` holding one direct child checkout `web-ui`. -/
def c3tree : Fs := .dir (str "r") true [.dir (str "web-ui") true []]

/-- `.git` probe that always succeeds. -/
def c3pe : JStr → Bool := fun _ => true

/-- Remote reader returning one matching canonical remote everywhere. -/
def c3ra : JStr → List JStr := fun _ => [str "github.com/datadog/web-ui"]

/-- A chain of `mid` directories ending in a `web-ui` checkout: `chainTree k`
places the checkout below `k` further descents. -/
def chainTree : Nat → Fs
  | 0 => .dir (str "web-ui") true []
  | n + 1 => .dir (str "mid") true [chainTree n]

/-- The path the walk reports for the checkout of `chainTree k`. -/
def chainPath (base : JStr) : Nat → JStr
  | 0 => pjoin base (str "web-ui")
  | n + 1 => chainPath (pjoin base (str "mid")) n

/-- A search root whose single subtree is `chainTree k`: the checkout sits
at `k + 1` directory descents below the root. -/
def chainRoot (k : Nat) : Fs := .dir (str "root") true [chainTree k]

/-- Join a base path with a chain of child directory names. -/
def joinSegs (base : JStr) (segs : List JStr) : JStr := segs.foldl pjoin base

/-- A world holding one live checkout of `github.com/datadog/web-ui` at
`/repos/web-ui`, with an empty cache. -/
def w1 : World where
  home := []
  cache := []
  cacheWritable := true
  pathExists := fun p => p == str "/repos/web-ui"
  remotesAt := fun p =>
    if p == str "/repos/web-ui" then [str "git@github.com:DataDog/web-ui.git"] else []
  fsAt := fun _ => .dir [] true []
  config := ⟨none, none⟩
  now := str "2026-01-01T00:00:00.000Z"

/-- A world whose cache holds one entry whose path no longer exists. -/
def w2 : World where
  home := []
  cache := [(str "github.com/gone/gone", ⟨str "/tmp/nope", str "t0"⟩)]
  cacheWritable := true
  pathExists := fun _ => false
  remotesAt := fun _ => []
  fsAt := fun _ => .file []
  config := ⟨none, none⟩
  now := str "t1"

/-- A world whose configuration lists zero search roots (and whose cache
file is not even writable). -/
def w0roots : World where
  home := []
  cache := []
  cacheWritable := false
  pathExists := fun _ => false
  remotesAt := fun _ => []
  fsAt := fun _ => .file []
  config := ⟨some [], none⟩
  now := []

/-- A world with a stale cache entry and an unwritable cache file: the
eviction write throws. -/
def wraise : World where
  home := []
  cache := [(str "github.com/a/b", ⟨str "/gone", str "t0"⟩)]
  cacheWritable := false
  pathExists := fun _ => false
  remotesAt := fun _ => []
  fsAt := fun _ => .file []
  config := ⟨none, none⟩
  now := []

/-- A world with configured scan depth 0 and a checkout three descents
below the root `/r` (found only because 0 is replaced by the default 4). -/
def wdepth0 : World where
  home := []
  cache := []
  cacheWritable := true
  pathExists := fun _ => true
  remotesAt := fun _ => [str "github.com/datadog/web-ui"]
  fsAt := fun _ => chainRoot 2
  config := ⟨some [str "/r"], some 0⟩
  now := []

/-! ## Helper lemmas -/

/- Model sanity checks, mirroring the repository's own test expectations. -/
example : normalizeRepoUrl (str "git@github.com:DataDog/web-ui.git") =
    some (str "github.com/datadog/web-ui") := by decide
example : normalizeRepoUrl (str "https://github.com/DataDog/web-ui.git") =
    some (str "github.com/datadog/web-ui") := by decide
example : normalizeRepoUrl (str "http://github.com/DataDog/web-ui.git") =
    some (str "github.com/datadog/web-ui") := by decide
example : normalizeRepoUrl (str "GITHUB.COM/DataDog/Web-UI") =
    some (str "github.com/datadog/web-ui") := by decide
example : normalizeRepoUrl (str "git@ssh.dev.azure.com:v3/org/project/repo") =
    some (str "dev.azure.com/org/project/repo") := by decide
example : normalizeRepoUrl (str "github.com/Foo/Bar///") = some (str "github.com/foo/bar") := by
  decide
example : normalizeRepoUrl (str "  github.com/a/b  ") = some (str "github.com/a/b") := by decide
example : normalizeRepoUrl (str " ") = some [] := by decide
example : extractRepoName (str "github.com/datadog/web-ui") = some (str "web-ui") := by decide
example : scanForRepo c3pe c3ra [] (str "github.com/datadog/web-ui") [str "/r"] 2
    (fun _ => chainRoot 1) = some (str "/r/mid/web-ui") := by decide
example : scanForRepo c3pe c3ra [] (str "github.com/datadog/web-ui") [str "/r"] 0
    (fun _ => chainRoot 1) = none := by decide


/-- The ASCII uppercase letters, the domain on which `lowerChar` acts. -/
def upperList : List Char :=
  ['A', 'B', 'C', 'D', 'E', 'F', 'G', 'H', 'I', 'J', 'K', 'L', 'M',
   'N', 'O', 'P', 'Q', 'R', 'S', 'T', 'U', 'V', 'W', 'X', 'Y', 'Z']

theorem lowerChar_eq_self (c : Char) (h : c ∉ upperList) : lowerChar c = c := by
  simp only [upperList, List.mem_cons, List.not_mem_nil, or_false] at h
  push_neg at h
  obtain ⟨h1, h2, h3, h4, h5, h6, h7, h8, h9, h10, h11, h12, h13, h14, h15, h16,
    h17, h18, h19, h20, h21, h22, h23, h24, h25, h26⟩ := h
  simp [lowerChar, h1, h2, h3, h4, h5, h6, h7, h8, h9, h10, h11, h12, h13, h14,
    h15, h16, h17, h18, h19, h20, h21, h22, h23, h24, h25, h26]

theorem lowerChar_idem (c : Char) : lowerChar (lowerChar c) = lowerChar c := by
  by_cases h : c ∈ upperList
  · fin_cases h <;> rfl
  · rw [lowerChar_eq_self c h, lowerChar_eq_self c h]

theorem jsToLower_idem (s : JStr) : jsToLower (jsToLower s) = jsToLower s := by
  induction s with
  | nil => rfl
  | cons c cs ih => simpa [jsToLower, lowerChar_idem c] using ih

theorem jsToLower_append (a b : JStr) : jsToLower (a ++ b) = jsToLower a ++ jsToLower b := by
  simp [jsToLower]

theorem jsToLower_length (s : JStr) : (jsToLower s).length = s.length := by
  simp [jsToLower]

theorem dropStart?_append (p r : JStr) : dropStart? p (p ++ r) = some r := by
  induction p with
  | nil => rfl
  | cons c cs ih => simp [dropStart?, ih]

theorem dropStart?_eq_some (p s r : JStr) (h : dropStart? p s = some r) : s = p ++ r := by
  induction p generalizing s with
  | nil => simpa [dropStart?] using h
  | cons c cs ih =>
    match s with
    | [] => simp [dropStart?] at h
    | d :: ds =>
      rw [dropStart?] at h
      split at h
      · next hd => simp [hd, ih ds h]
      · exact absurd h (by simp)

theorem dropStart?_eq_none (p s : JStr) (h : dropStart? p s = none) : ¬ p <+: s := by
  intro ⟨r, hr⟩
  rw [← hr, dropStart?_append] at h
  exact Option.noConfusion h

theorem dropStart?_of_not_prefix (p s : JStr) (h : ¬ p <+: s) : dropStart? p s = none := by
  cases hd : dropStart? p s with
  | none => rfl
  | some r => exact absurd ⟨r, (dropStart?_eq_some p s r hd).symm⟩ h

theorem splitColon?_append (h t : JStr) (hh : ':' ∉ h) :
    splitColon? (h ++ ':' :: t) = some (h, t) := by
  induction h with
  | nil => rfl
  | cons c cs ih =>
    have hc : ¬ c = ':' := fun hc => hh (by simp [hc])
    have hcs : ':' ∉ cs := fun hm => hh (by simp [hm])
    simp [splitColon?, hc, ih hcs]

theorem splitColon?_of_no_colon (l : JStr) (hl : ':' ∉ l) : splitColon? l = none := by
  induction l with
  | nil => rfl
  | cons c cs ih =>
    have hc : ¬ c = ':' := fun hc => hl (by simp [hc])
    have hcs : ':' ∉ cs := fun hm => hl (by simp [hm])
    simp [splitColon?, hc, ih hcs]

theorem takeLine_eq_self (s : JStr) (h : ∀ c ∈ s, isLineTerm c = false) :
    takeLine s = s := by
  induction s with
  | nil => rfl
  | cons c cs ih =>
    have hc := h c (by simp)
    have hcs : ∀ d ∈ cs, isLineTerm d = false := fun d hd => h d (by simp [hd])
    have ih' := ih hcs
    simp only [takeLine] at ih' ⊢
    simp [List.takeWhile_cons, hc, ih']

theorem dropWhile_eq_self {p : Char → Bool} (l : JStr)
    (h : ∀ c, l.head? = some c → p c = false) : l.dropWhile p = l := by
  cases l with
  | nil => rfl
  | cons c cs => simp [List.dropWhile, h c rfl]

theorem jsTrim_eq_self (s : JStr)
    (hh : ∀ c, s.head? = some c → isJsSpace c = false)
    (hl : ∀ c, s.getLast? = some c → isJsSpace c = false) : jsTrim s = s := by
  have h2 : ∀ c, s.reverse.head? = some c → isJsSpace c = false := by
    intro c hc
    rw [List.head?_reverse] at hc
    exact hl c hc
  unfold jsTrim
  rw [dropWhile_eq_self s hh, dropWhile_eq_self s.reverse h2, List.reverse_reverse]

theorem stripGitSuffix_append (l : JStr) : stripGitSuffix (l ++ str ".git") = l := by
  have h : (l ++ str ".git").reverse = str "tig." ++ l.reverse := by
    rw [List.reverse_append]
    rfl
  simp [stripGitSuffix, h, dropStart?_append]

theorem stripGitSuffix_eq_self (u : JStr) (h : ¬ str ".git" <:+ u) :
    stripGitSuffix u = u := by
  have hp : ¬ str "tig." <+: u.reverse := by
    intro hpre
    exact h (List.reverse_prefix.mp hpre)
  simp [stripGitSuffix, dropStart?_of_not_prefix _ _ hp]

theorem stripTrailingSlashes_eq_self (u : JStr)
    (h : ∀ c, u.getLast? = some c → c ≠ '/') : stripTrailingSlashes u = u := by
  unfold stripTrailingSlashes
  rw [dropWhile_eq_self u.reverse (by
    intro c hc
    have := h c (by rwa [← List.head?_reverse])
    simpa using this)]
  exact List.reverse_reverse u

theorem stripScheme_eq_self (u : JStr) (h1 : ¬ str "https://" <+: u)
    (h2 : ¬ str "http://" <+: u) : stripScheme u = u := by
  simp [stripScheme, dropStart?_of_not_prefix _ _ h1, dropStart?_of_not_prefix _ _ h2]

theorem stripScheme_https (r : JStr) : stripScheme (str "https://" ++ r) = r := by
  simp [stripScheme, dropStart?_append]

theorem lookupA_updateA (c : Cache) (k : JStr) (v : CEntry) :
    lookupA (updateA c k v) k = some v := by
  induction c with
  | nil => simp [updateA, lookupA]
  | cons p t ih =>
    by_cases hk : p.1 = k
    · simp [updateA, lookupA, hk]
    · simp [updateA, lookupA, hk, ih]

theorem lookupA_eraseA (c : Cache) (k : JStr) : lookupA (eraseA c k) k = none := by
  induction c with
  | nil => rfl
  | cons p t ih =>
    by_cases hk : p.1 = k
    · simpa [eraseA, hk] using ih
    · simpa [eraseA, lookupA, hk] using ih

theorem dropStart?_cons_ne (p : Char) (ps : JStr) (c : Char) (cs : JStr) (h : c ≠ p) :
    dropStart? (p :: ps) (c :: cs) = none := by
  simp [dropStart?, h]

/-- Splitting at the first colon is unambiguous. -/
theorem colon_split_unique (a b c d : JStr) (ha : ':' ∉ a) (hc : ':' ∉ c)
    (h : a ++ ':' :: b = c ++ ':' :: d) : a = c ∧ b = d := by
  induction a generalizing c with
  | nil =>
    cases c with
    | nil => simpa using h
    | cons x xs =>
      have hx : x = ':' := by simpa using congrArg List.head? h.symm
      exact absurd (by simp [hx]) hc
  | cons x xs ih =>
    cases c with
    | nil =>
      have hx : x = ':' := by simpa using congrArg List.head? h
      exact absurd (by simp [hx]) ha
    | cons y ys =>
      have hxy : x = y := by simpa using congrArg List.head? h
      have ht : xs ++ ':' :: b = ys ++ ':' :: d := by simpa [hxy] using h
      have hxs : ':' ∉ xs := fun hm => ha (by simp [hm])
      have hys : ':' ∉ ys := fun hm => hc (by simp [hm])
      obtain ⟨h1, h2⟩ := ih ys hxs hys ht
      exact ⟨by simp [hxy, h1], h2⟩

theorem azureMatch_of_no_colon (u : JStr) (h : ':' ∉ u) : azureMatch u = none := by
  cases hd : dropStart? (str "git@ssh.dev.azure.com:v3/") u with
  | none => simp [azureMatch, hd]
  | some r =>
    have hu := dropStart?_eq_some _ _ _ hd
    have : (':' : Char) ∈ u := by
      rw [hu]
      exact List.mem_append.mpr (Or.inl (by decide))
    exact absurd this h

theorem sshMatch_of_no_colon (u : JStr) (h : ':' ∉ u) : sshMatch u = none := by
  cases hd : dropStart? (str "git@") u with
  | none => simp [sshMatch, hd]
  | some rest =>
    have hu := dropStart?_eq_some _ _ _ hd
    have hrest : ':' ∉ rest := by
      intro hm
      exact h (by rw [hu]; exact List.mem_append.mpr (Or.inr hm))
    simp [sshMatch, hd, splitColon?_of_no_colon rest hrest]

/-- If the azure and generic-SSH regexes both fail, `normalizeRepoUrl` takes
the scheme/suffix-stripping branch. -/
theorem normalize_branch3 (url : JStr) (hne : ¬ url = [])
    (haz : azureMatch (jsTrim url) = none) (hssh : sshMatch (jsTrim url) = none) :
    normalizeRepoUrl url =
      some (jsToLower (stripTrailingSlashes (stripGitSuffix (stripScheme (jsTrim url))))) := by
  simp [normalizeRepoUrl, hne, haz, hssh]

/-- Every non-`null` result of `normalizeRepoUrl` is unchanged by a further
`toLowerCase` — the canonical identifier is lowercase. -/
theorem normalizeRepoUrl_lower (url r : JStr) (h : normalizeRepoUrl url = some r) :
    jsToLower r = r := by
  have hstrip : ∀ s : JStr, jsToLower s = s → jsToLower (stripGitSuffix s) = stripGitSuffix s := by
    intro s hs
    cases hd : dropStart? (str "tig.") s.reverse with
    | none => simpa [stripGitSuffix, hd] using hs
    | some rest =>
      have hs' : s = rest.reverse ++ str ".git" := by
        have := dropStart?_eq_some _ _ _ hd
        calc s = s.reverse.reverse := (List.reverse_reverse s).symm
        _ = (str "tig." ++ rest).reverse := by rw [this]
        _ = rest.reverse ++ str ".git" := by rw [List.reverse_append]; rfl
      have hlow : jsToLower rest.reverse ++ jsToLower (str ".git")
          = rest.reverse ++ str ".git" := by
        rw [← jsToLower_append, ← hs']
        exact hs
      have hlen : (jsToLower rest.reverse).length = rest.reverse.length := jsToLower_length _
      have := (List.append_inj hlow (by rw [hlen])).1
      simp [stripGitSuffix, hd, this]
  by_cases hne : url = []
  · simp [normalizeRepoUrl, hne] at h
  · simp only [normalizeRepoUrl, if_neg hne] at h
    cases haz : azureMatch (jsTrim url) with
    | some cap =>
      rw [haz] at h
      have hr : r = stripGitSuffix (jsToLower (str "dev.azure.com/" ++ cap)) :=
        (Option.some_inj.mp h).symm
      rw [hr]
      exact hstrip _ (jsToLower_idem _)
    | none =>
      rw [haz] at h
      cases hssh : sshMatch (jsTrim url) with
      | some pr =>
        obtain ⟨host, cap⟩ := pr
        rw [hssh] at h
        have hr : r = stripGitSuffix (jsToLower (host ++ '/' :: cap)) :=
          (Option.some_inj.mp h).symm
        rw [hr]
        exact hstrip _ (jsToLower_idem _)
      | none =>
        rw [hssh] at h
        have hr : r = jsToLower (stripTrailingSlashes (stripGitSuffix (stripScheme (jsTrim url)))) :=
          (Option.some_inj.mp h).symm
        rw [hr]
        exact jsToLower_idem _

/-- The azure regex does not fire on a generic SSH form whose host is not
`ssh.dev.azure.com`. -/
theorem azureMatch_ssh_form (host path : JStr) (hcol : ':' ∉ host)
    (haz : host ≠ str "ssh.dev.azure.com") :
    azureMatch (str "git@" ++ (host ++ ':' :: path)) = none := by
  cases hd : dropStart? (str "git@ssh.dev.azure.com:v3/") (str "git@" ++ (host ++ ':' :: path)) with
  | none => simp [azureMatch, hd]
  | some r =>
    exfalso
    have hu := dropStart?_eq_some _ _ _ hd
    have hsplit : str "git@ssh.dev.azure.com:v3/" ++ r =
        str "git@" ++ (str "ssh.dev.azure.com" ++ ':' :: (str "v3/" ++ r)) := by
      rw [show str "git@ssh.dev.azure.com:v3/" =
        str "git@" ++ (str "ssh.dev.azure.com" ++ ':' :: str "v3/") from rfl]
      simp
    rw [hsplit] at hu
    have := List.append_cancel_left hu
    exact haz (colon_split_unique _ _ _ _ hcol (by decide) this).1

theorem sshMatch_form (host path : JStr) (hhost : ¬ host = []) (hcol : ':' ∉ host)
    (hp : ¬ path = []) (hlt : ∀ c ∈ path, isLineTerm c = false) :
    sshMatch (str "git@" ++ (host ++ ':' :: path)) = some (host, path) := by
  have h1 : dropStart? (str "git@") (str "git@" ++ (host ++ ':' :: path)) =
      some (host ++ ':' :: path) := dropStart?_append _ _
  simp [sshMatch, h1, splitColon?_append host path hcol, hhost,
    takeLine_eq_self path hlt, hp]

/-- A string beginning with a non-space character and ending (via its last
component) with a non-space character is unchanged by `trim`. -/
theorem jsTrim_append_form (a b : JStr) (ha : a ≠ []) (hb : b ≠ [])
    (hah : ∀ c, a.head? = some c → isJsSpace c = false)
    (hbl : ∀ c, b.getLast? = some c → isJsSpace c = false) :
    jsTrim (a ++ b) = a ++ b := by
  apply jsTrim_eq_self
  · intro c hc
    rw [List.head?_append_of_ne_nil a ha] at hc
    exact hah c hc
  · intro c hc
    rw [List.getLast?_append_of_ne_nil a hb] at hc
    exact hbl c hc

/-- General SSH form with user `git`: `git@host:path` normalizes to
`host/path` lowercased with one trailing `.git` stripped (after
lowercasing), provided the host is non-empty, colon-free, and not the Azure
SSH host, and the path is non-empty without line terminators or trailing
white space. -/
theorem normalize_ssh (host path : JStr) (hhost : ¬ host = []) (hcol : ':' ∉ host)
    (hazh : host ≠ str "ssh.dev.azure.com") (hp : ¬ path = [])
    (hlt : ∀ c ∈ path, isLineTerm c = false)
    (hlast : ∀ c, path.getLast? = some c → isJsSpace c = false) :
    normalizeRepoUrl (str "git@" ++ (host ++ ':' :: path)) =
      some (stripGitSuffix (jsToLower (host ++ '/' :: path))) := by
  have hne : ¬ (str "git@" ++ (host ++ ':' :: path)) = [] := by
    rw [show str "git@" ++ (host ++ ':' :: path) =
      'g' :: (str "it@" ++ (host ++ ':' :: path)) from rfl]
    simp
  have hb : (host ++ ':' :: path) ≠ [] := by simp
  have htrim : jsTrim (str "git@" ++ (host ++ ':' :: path)) =
      str "git@" ++ (host ++ ':' :: path) := by
    apply jsTrim_append_form _ _ (by decide) hb
    · intro c hc
      rw [show (str "git@").head? = some 'g' from rfl] at hc
      cases hc
      decide
    · intro c hc
      rw [show host ++ ':' :: path = host ++ ([':'] ++ path) from rfl,
        List.getLast?_append_of_ne_nil host (by simp),
        List.getLast?_append_of_ne_nil [':'] hp] at hc
      exact hlast c hc
  simp [normalizeRepoUrl, hne, htrim, azureMatch_ssh_form host path hcol hazh,
    sshMatch_form host path hhost hcol hp hlt]

/-- HTTPS form: the scheme is stripped, then `.git`, then trailing slashes,
then the remainder is lowercased. -/
theorem normalize_https_form (X : JStr) (hX : ¬ X = [])
    (hlast : ∀ c, X.getLast? = some c → isJsSpace c = false) :
    normalizeRepoUrl (str "https://" ++ X) =
      some (jsToLower (stripTrailingSlashes (stripGitSuffix X))) := by
  have hne : ¬ (str "https://" ++ X) = [] := by
    rw [show str "https://" ++ X = 'h' :: (str "ttps://" ++ X) from rfl]
    simp
  have htrim : jsTrim (str "https://" ++ X) = str "https://" ++ X := by
    apply jsTrim_append_form _ _ (by decide) hX
    · intro c hc
      rw [show (str "https://").head? = some 'h' from rfl] at hc
      cases hc
      decide
    · exact hlast
  have haz : azureMatch (str "https://" ++ X) = none := rfl
  have hssh : sshMatch (str "https://" ++ X) = none := rfl
  rw [normalize_branch3 _ hne (by rw [htrim]; exact haz) (by rw [htrim]; exact hssh),
    htrim, stripScheme_https]

/-- A colon-free, trim-invariant input takes the third branch with no
scheme to strip. -/
theorem normalize_no_colon (u : JStr) (hne : ¬ u = []) (hcol : ':' ∉ u)
    (htrim : jsTrim u = u) :
    normalizeRepoUrl u = some (jsToLower (stripTrailingSlashes (stripGitSuffix u))) := by
  have hsch : stripScheme u = u := by
    apply stripScheme_eq_self
    · intro hpre
      exact hcol (hpre.subset (by decide))
    · intro hpre
      exact hcol (hpre.subset (by decide))
  rw [normalize_branch3 u hne (by rw [htrim]; exact azureMatch_of_no_colon u hcol)
    (by rw [htrim]; exact sshMatch_of_no_colon u hcol), htrim, hsch]

/-- Azure SSH shorthand: `git@ssh.dev.azure.com:v3/<rest>` canonicalizes to
`dev.azure.com/<rest>` lowercased with one trailing `.git` stripped. -/
theorem normalize_azure_form (o : JStr) (ho : ¬ o = [])
    (hlt : ∀ c ∈ o, isLineTerm c = false)
    (hlast : ∀ c, o.getLast? = some c → isJsSpace c = false) :
    normalizeRepoUrl (str "git@ssh.dev.azure.com:v3/" ++ o) =
      some (stripGitSuffix (jsToLower (str "dev.azure.com/" ++ o))) := by
  have hne : ¬ (str "git@ssh.dev.azure.com:v3/" ++ o) = [] := by
    rw [show str "git@ssh.dev.azure.com:v3/" ++ o =
      'g' :: (str "it@ssh.dev.azure.com:v3/" ++ o) from rfl]
    simp
  have htrim : jsTrim (str "git@ssh.dev.azure.com:v3/" ++ o) =
      str "git@ssh.dev.azure.com:v3/" ++ o := by
    apply jsTrim_append_form _ _ (by decide) ho
    · intro c hc
      rw [show (str "git@ssh.dev.azure.com:v3/").head? = some 'g' from rfl] at hc
      cases hc
      decide
    · exact hlast
  have haz : azureMatch (str "git@ssh.dev.azure.com:v3/" ++ o) = some o := by
    simp [azureMatch, dropStart?_append, takeLine_eq_self o hlt, ho]
  simp [normalizeRepoUrl, hne, htrim, haz]

theorem findSome?_eq_some {α β : Type} (f : α → Option β) (l : List α) (b : β)
    (h : l.findSome? f = some b) : ∃ a ∈ l, f a = some b := by
  induction l with
  | nil => simp [List.findSome?] at h
  | cons a t ih =>
    rw [List.findSome?_cons] at h
    cases ha : f a with
    | some b' =>
      rw [ha] at h
      exact ⟨a, by simp, by rw [ha]; exact h⟩
    | none =>
      rw [ha] at h
      obtain ⟨a', ha', hfa⟩ := ih h
      exact ⟨a', by simp [ha'], hfa⟩

theorem mem_dotgit_lineTerm (c : Char) (hc : c ∈ str ".git") : isLineTerm c = false := by
  rw [show str ".git" = ['.', 'g', 'i', 't'] from rfl] at hc
  simp only [List.mem_cons, List.not_mem_nil, or_false] at hc
  rcases hc with rfl | rfl | rfl | rfl <;> decide

theorem getLast?_append_dotgit (X : JStr) : (X ++ str ".git").getLast? = some 't' := by
  rw [List.getLast?_append_of_ne_nil X (by decide)]
  rfl

theorem stripGit_lower_append (Y : JStr) :
    stripGitSuffix (jsToLower (Y ++ str ".git")) = jsToLower Y := by
  rw [jsToLower_append, show jsToLower (str ".git") = str ".git" from rfl]
  exact stripGitSuffix_append _

theorem getLast?_slash_mid (h o : JStr) (ho : ¬ o = []) :
    (h ++ '/' :: o).getLast? = o.getLast? := by
  rw [show h ++ '/' :: o = h ++ (['/'] ++ o) from rfl,
    List.getLast?_append_of_ne_nil h (by simp),
    List.getLast?_append_of_ne_nil ['/'] ho]

theorem sts_slash_form (h o : JStr) (ho : ¬ o = [])
    (hs : ∀ c, o.getLast? = some c → c ≠ '/') :
    stripTrailingSlashes (h ++ '/' :: o) = h ++ '/' :: o := by
  apply stripTrailingSlashes_eq_self
  intro c hc
  rw [getLast?_slash_mid h o ho] at hc
  exact hs c hc

theorem updateA_updateA (c : Cache) (k : JStr) (v v' : CEntry) :
    updateA (updateA c k v) k v' = updateA c k v' := by
  induction c with
  | nil => simp [updateA]
  | cons p t ih =>
    by_cases hk : p.1 = k
    · simp [updateA, hk]
    · simp [updateA, hk, ih]

/-- When the cache file is writable, `cacheLookup` never throws. -/
theorem cacheLookup_isOk (w : World) (n : JStr) (hwr : w.cacheWritable = true) :
    ∃ v, cacheLookup w n = .ok v := by
  cases hl : lookupA w.cache n with
  | none => exact ⟨(none, w.cache), by simp only [cacheLookup, hl]⟩
  | some entry =>
    by_cases h1 : w.pathExists entry.path = false
    · refine ⟨(none, eraseA w.cache n), ?_⟩
      simp only [cacheLookup, hl]
      rw [if_pos h1]
      simp [saveCache, hwr]
    · by_cases h2 :
          ((w.remotesAt entry.path).map normalizeRepoUrl).contains (some n) = false
      · refine ⟨(none, eraseA w.cache n), ?_⟩
        simp only [cacheLookup, hl]
        rw [if_neg h1, if_pos h2]
        simp [saveCache, hwr]
      · refine ⟨(some entry.path, updateA w.cache n ⟨entry.path, w.now⟩), ?_⟩
        simp only [cacheLookup, hl]
        rw [if_neg h1, if_neg h2]
        simp [saveCache, hwr]

/-- When the cache file is writable, the scan-and-store tail never throws. -/
theorem resolveScan_isOk (w : World) (c1 : Cache) (n : JStr)
    (hwr : w.cacheWritable = true) : ∃ v, resolveScan w c1 n = .ok v := by
  cases hs : scanForRepo w.pathExists w.remotesAt w.home n
      (match w.config.gitSearchPaths with
        | some l => l
        | none => [str "~/dd"])
      (match w.config.gitSearchMaxDepth with
        | some d => if d = 0 then 4 else d
        | none => 4) w.fsAt with
  | none => exact ⟨(none, c1), by simp only [resolveScan, hs]⟩
  | some found =>
    by_cases hf : found = []
    · exact ⟨(none, c1), by simp only [resolveScan, hs]; rw [if_pos hf]⟩
    · refine ⟨(some found, updateA c1 n ⟨found, w.now⟩), ?_⟩
      simp only [resolveScan, hs]
      rw [if_neg hf]
      simp [cacheStore, saveCache, hwr]

/-! ## Claim theorems: normalization (C4–C7) -/

/-- C5 (counterexample): the canonical-form invariant fails as stated.
`github.com/a/b.GIT` normalizes to a string with a trailing `.git` (the
suffix is stripped before lowercasing in the non-SSH branch),
`HTTP://x` keeps an `http://` prefix (the scheme regex is
case-sensitive), and the SSH branch never strips trailing slashes. -/
theorem C5_counterexample :
    normalizeRepoUrl (str "github.com/a/b.GIT") = some (str "github.com/a/b.git") ∧
    str ".git" <:+ str "github.com/a/b.git" ∧
    normalizeRepoUrl (str "HTTP://x") = some (str "http://x") ∧
    str "http://" <+: str "http://x" ∧
    normalizeRepoUrl (str "git@h:a/") = some (str "h/a/") ∧
    str "/" <:+ str "h/a/" := by
  refine ⟨by decide, by decide, by decide, by decide, by decide, by decide⟩

/-- C5 (amended): every non-`null` result of `normalizeRepoUrl` is a
lowercase string (it is fixed by `toLowerCase`); the remaining
canonical-form properties (no scheme prefix, no trailing `.git`, no
trailing slashes) do not hold for every raw input. -/
theorem C5_canonical_lowercase (url r : JStr) (h : normalizeRepoUrl url = some r) :
    jsToLower r = r :=
  normalizeRepoUrl_lower url r h

/-- Witness for C5: a concrete mixed-case input whose canonical result is
fixed by `toLowerCase`. -/
theorem C5_canonical_lowercase_witness :
    normalizeRepoUrl (str "GITHUB.COM/DataDog/Web-UI") =
        some (str "github.com/datadog/web-ui") ∧
    jsToLower (str "github.com/datadog/web-ui") = str "github.com/datadog/web-ui" :=
  ⟨by decide, C5_canonical_lowercase (str "GITHUB.COM/DataDog/Web-UI")
    (str "github.com/datadog/web-ui") (by decide)⟩

/-- C4 (counterexample): cross-syntax equivalence fails as stated.  With an
uppercase `.GIT` suffix ("with or without a trailing .git, in any character
case") the HTTPS form keeps the suffix, because the non-SSH branch strips
`.git` case-sensitively *before* lowercasing, while the SSH branch strips
it *after* lowercasing — the same repository yields two different
identifiers. -/
theorem C4_counterexample :
    normalizeRepoUrl (str "https://github.com/DataDog/web-ui.GIT") =
      some (str "github.com/datadog/web-ui.git") ∧
    normalizeRepoUrl (str "git@github.com:DataDog/web-ui.GIT") =
      some (str "github.com/datadog/web-ui") ∧
    str "github.com/datadog/web-ui.git" ≠ str "github.com/datadog/web-ui" := by
  refine ⟨by decide, by decide, by decide⟩

/-- C4 (amended): for every host `h` (non-empty, colon-free, not the Azure
SSH host, starting with non-whitespace) and every owner/repo path `o`
(non-empty, colon-free, without line terminators, not ending in whitespace
or a slash, the joined form not ending in a *lowercase* `.git`), the SSH,
HTTPS and bare syntaxes — with the trailing `.git` suffix and the scheme
written in lowercase — all normalize to the single identifier
`toLowerCase(h/o)`; the Azure SSH shorthand normalizes to
`toLowerCase(dev.azure.com/<rest>)`; and the spec's three concrete example
syntaxes all normalize to `github.com/datadog/web-ui`. -/
theorem C4_cross_syntax_equiv (h o : JStr) (hh : ¬ h = []) (hcol : ':' ∉ h)
    (hazh : h ≠ str "ssh.dev.azure.com") (ho : ¬ o = []) (hocol : ':' ∉ o)
    (holt : ∀ c ∈ o, isLineTerm c = false)
    (hhead : ∀ c, h.head? = some c → isJsSpace c = false)
    (holast : ∀ c, o.getLast? = some c → isJsSpace c = false)
    (hnogit : ¬ str ".git" <:+ h ++ '/' :: o)
    (hnosl : ∀ c, o.getLast? = some c → c ≠ '/') :
    normalizeRepoUrl (str "git@" ++ (h ++ ':' :: (o ++ str ".git"))) =
        some (jsToLower (h ++ '/' :: o)) ∧
    normalizeRepoUrl (str "https://" ++ (h ++ '/' :: (o ++ str ".git"))) =
        some (jsToLower (h ++ '/' :: o)) ∧
    normalizeRepoUrl (h ++ '/' :: o) = some (jsToLower (h ++ '/' :: o)) ∧
    (¬ str ".git" <:+ jsToLower (str "dev.azure.com/" ++ o) →
      normalizeRepoUrl (str "git@ssh.dev.azure.com:v3/" ++ o) =
        some (jsToLower (str "dev.azure.com/" ++ o))) ∧
    normalizeRepoUrl (str "git@github.com:DataDog/web-ui.git") =
        some (str "github.com/datadog/web-ui") ∧
    normalizeRepoUrl (str "https://github.com/DataDog/web-ui.git") =
        some (str "github.com/datadog/web-ui") ∧
    normalizeRepoUrl (str "GITHUB.COM/DataDog/Web-UI") =
        some (str "github.com/datadog/web-ui") := by
  have hdg : str ".git" = ['.', 'g', 'i', 't'] := rfl
  have hmid : h ++ '/' :: (o ++ str ".git") = (h ++ '/' :: o) ++ str ".git" := by simp
  have hpne : ¬ (o ++ str ".git") = [] := by
    rw [hdg]
    simp
  have hlt' : ∀ c ∈ o ++ str ".git", isLineTerm c = false := by
    intro c hc
    rcases List.mem_append.mp hc with h1 | h1
    · exact holt c h1
    · exact mem_dotgit_lineTerm c h1
  have hlast' : ∀ c, (o ++ str ".git").getLast? = some c → isJsSpace c = false := by
    intro c hc
    rw [getLast?_append_dotgit] at hc
    cases hc
    decide
  refine ⟨?_, ?_, ?_, ?_, by decide, by decide, by decide⟩
  · rw [normalize_ssh h (o ++ str ".git") hh hcol hazh hpne hlt' hlast', hmid,
      stripGit_lower_append]
  · have hXne : ¬ (h ++ '/' :: (o ++ str ".git")) = [] := by simp
    have hlast2 : ∀ c, (h ++ '/' :: (o ++ str ".git")).getLast? = some c →
        isJsSpace c = false := by
      intro c hc
      rw [hmid, getLast?_append_dotgit] at hc
      cases hc
      decide
    rw [normalize_https_form _ hXne hlast2, hmid, stripGitSuffix_append,
      sts_slash_form h o ho hnosl]
  · have hbne : ¬ (h ++ '/' :: o) = [] := by simp
    have hcolb : ':' ∉ h ++ '/' :: o := by
      intro hm
      rcases List.mem_append.mp hm with h1 | h1
      · exact hcol h1
      · rcases List.mem_cons.mp h1 with h2 | h2
        · exact absurd h2 (by decide)
        · exact hocol h2
    have htrimb : jsTrim (h ++ '/' :: o) = h ++ '/' :: o := by
      apply jsTrim_append_form h ('/' :: o) hh (by simp) hhead
      intro c hc
      rw [show ('/' :: o) = ['/'] ++ o from rfl,
        List.getLast?_append_of_ne_nil ['/'] ho] at hc
      exact holast c hc
    rw [normalize_no_colon _ hbne hcolb htrimb, stripGitSuffix_eq_self _ hnogit,
      sts_slash_form h o ho hnosl]
  · intro hnogit2
    rw [normalize_azure_form o ho holt holast, stripGitSuffix_eq_self _ hnogit2]

/-- Witness for C4: the amended equivalence at host `github.com` and path
`DataDog/web-ui` (the SSH conjunct). -/
theorem C4_cross_syntax_equiv_witness :
    normalizeRepoUrl
        (str "git@" ++ (str "github.com" ++ ':' :: (str "DataDog/web-ui" ++ str ".git"))) =
      some (jsToLower (str "github.com" ++ '/' :: str "DataDog/web-ui")) :=
  (C4_cross_syntax_equiv (str "github.com") (str "DataDog/web-ui") (by decide) (by decide)
    (by decide) (by decide) (by decide) (by decide)
    (by intro c hc; cases hc; decide) (by intro c hc; cases hc; decide)
    (by decide) (by intro c hc; cases hc; decide)).1

/-- C6 (counterexample): the claim quantifies over every user name, but the
SSH regex is `^git@([^:]+):(.+)` — an SSH form with user `alice` falls
through to the generic branch and is returned (lowercased) unchanged, not
rewritten to `host/path`. -/
theorem C6_counterexample :
    normalizeRepoUrl (str "alice@github.com:a/b") = some (str "alice@github.com:a/b") ∧
    str "alice@github.com:a/b" ≠ str "github.com/a/b" := by
  refine ⟨by decide, by decide⟩

/-- C6 (amended): for the user name `git` specifically — and a host that is
non-empty, colon-free and not the Azure SSH host, with a non-empty path
free of line terminators and trailing whitespace — `git@host:path`
normalizes to `host/path` lowercased with a trailing `.git` suffix
stripped after lowercasing. -/
theorem C6_ssh_git_user (host path : JStr) (hhost : ¬ host = []) (hcol : ':' ∉ host)
    (hazh : host ≠ str "ssh.dev.azure.com") (hp : ¬ path = [])
    (hlt : ∀ c ∈ path, isLineTerm c = false)
    (hlast : ∀ c, path.getLast? = some c → isJsSpace c = false) :
    normalizeRepoUrl (str "git@" ++ (host ++ ':' :: path)) =
      some (stripGitSuffix (jsToLower (host ++ '/' :: path))) :=
  normalize_ssh host path hhost hcol hazh hp hlt hlast

/-- Witness for C6: the generic SSH form at a concrete host and path. -/
theorem C6_ssh_git_user_witness :
    normalizeRepoUrl (str "git@" ++ (str "github.com" ++ ':' :: str "DataDog/web-ui.git")) =
      some (stripGitSuffix (jsToLower (str "github.com" ++ '/' :: str "DataDog/web-ui.git"))) :=
  C6_ssh_git_user (str "github.com") (str "DataDog/web-ui.git") (by decide) (by decide)
    (by decide) (by decide) (by decide) (by intro c hc; cases hc; decide)

/-- C7 (counterexample): idempotence fails as stated.  A whitespace-only
input normalizes to the empty string, which re-normalizes to `null`; and
`GIT@H:A` (uppercase, so the case-sensitive SSH regex misses it) normalizes
to `git@h:a`, which re-normalizes through the now-matching SSH branch to
`h/a`. -/
theorem C7_counterexample :
    normalizeRepoUrl (str " ") = some [] ∧
    normalizeRepoUrl [] = none ∧
    normalizeRepoUrl (str "GIT@H:A") = some (str "git@h:a") ∧
    normalizeRepoUrl (str "git@h:a") = some (str "h/a") ∧
    str "git@h:a" ≠ str "h/a" := by
  refine ⟨by decide, by decide, by decide, by decide, by decide⟩

/-- C7 (amended): normalization is idempotent on every result that is
non-empty, trim-invariant, does not begin with `git@`, `https://` or
`http://`, and does not end with `.git` or a slash — re-feeding such a
result reproduces it exactly. -/
theorem C7_idem_conditional (x r : JStr) (hx : normalizeRepoUrl x = some r)
    (hne : ¬ r = []) (htrim : jsTrim r = r)
    (hgit : ¬ str "git@" <+: r) (hhttps : ¬ str "https://" <+: r)
    (hhttp : ¬ str "http://" <+: r) (hdotgit : ¬ str ".git" <:+ r)
    (hsl : ∀ c, r.getLast? = some c → c ≠ '/') :
    normalizeRepoUrl r = some r := by
  have hlow := normalizeRepoUrl_lower x r hx
  have haz : azureMatch r = none := by
    cases hd : dropStart? (str "git@ssh.dev.azure.com:v3/") r with
    | none => simp [azureMatch, hd]
    | some rest =>
      exfalso
      apply hgit
      have hr := dropStart?_eq_some _ _ _ hd
      exact (show str "git@" <+: str "git@ssh.dev.azure.com:v3/" by decide).trans
        ⟨rest, hr.symm⟩
  have hssh2 : sshMatch r = none := by
    simp [sshMatch, dropStart?_of_not_prefix _ _ hgit]
  rw [normalize_branch3 r hne (by rw [htrim]; exact haz) (by rw [htrim]; exact hssh2), htrim,
    stripScheme_eq_self r hhttps hhttp, stripGitSuffix_eq_self r hdotgit,
    stripTrailingSlashes_eq_self r hsl, hlow]

/-- Witness for C7: idempotence at a concrete SSH input. -/
theorem C7_idem_conditional_witness :
    normalizeRepoUrl (str "github.com/datadog/web-ui") =
      some (str "github.com/datadog/web-ui") :=
  C7_idem_conditional (str "git@github.com:DataDog/web-ui.git")
    (str "github.com/datadog/web-ui") (by decide) (by decide) (by decide)
    (by decide) (by decide) (by decide) (by decide)
    (by intro c hc; cases hc; decide)

/-- The walk of a single `chainTree k` entry from depth `depth` succeeds
exactly when `depth + k` stays within `maxDepth`, returning the chained
path. -/
theorem walkEntries_chain (k : Nat) (maxD : Int) :
    ∀ (depth : Int) (base : JStr), depth ≤ maxD →
    walkEntries c3pe c3ra [chainTree k] base (str "web-ui")
      (str "github.com/datadog/web-ui") depth maxD =
    if depth + (k : Int) ≤ maxD then some (chainPath base k) else none := by
  induction k with
  | zero =>
    intro depth base hd
    have h0 : depth + ((0 : Nat) : Int) ≤ maxD := by push_cast; omega
    rw [if_pos h0]
    simp only [chainTree, walkEntries]
    have hcond : jsToLower (str "web-ui") = str "web-ui" ∧
        c3pe (pjoin (pjoin base (str "web-ui")) (str ".git")) = true ∧
        ((c3ra (pjoin base (str "web-ui"))).map normalizeRepoUrl).contains
          (some (str "github.com/datadog/web-ui")) = true := ⟨rfl, rfl, rfl⟩
    rw [if_neg (show ¬ SKIP_DIRS.contains (str "web-ui") = true by decide), if_pos hcond]
    rfl
  | succ k ih =>
    intro depth base hd
    simp only [chainTree, walkEntries]
    have hnomatch : ¬ (jsToLower (str "mid") = str "web-ui" ∧
        c3pe (pjoin (pjoin base (str "mid")) (str ".git")) = true ∧
        ((c3ra (pjoin base (str "mid"))).map normalizeRepoUrl).contains
          (some (str "github.com/datadog/web-ui")) = true) :=
      fun hcontra => absurd hcontra.1 (by decide)
    rw [if_neg (show ¬ SKIP_DIRS.contains (str "mid") = true by decide), if_neg hnomatch]
    by_cases hd1 : depth + 1 ≤ maxD
    · have hwd : walkDir c3pe c3ra (Fs.dir (str "mid") true [chainTree k])
          (pjoin base (str "mid")) (str "web-ui") (str "github.com/datadog/web-ui")
          (depth + 1) maxD =
          if depth + 1 + (k : Int) ≤ maxD then
            some (chainPath (pjoin base (str "mid")) k) else none := by
        simp only [walkDir]
        rw [if_neg (show ¬ depth + 1 > maxD by omega)]
        simp only [if_true]
        exact ih (depth + 1) (pjoin base (str "mid")) hd1
      rw [hwd]
      by_cases h2 : depth + 1 + (k : Int) ≤ maxD
      · have hko : depth + ((k + 1 : Nat) : Int) ≤ maxD := by push_cast; omega
        rw [if_pos h2, if_pos hko]
        rfl
      · have hko : ¬ depth + ((k + 1 : Nat) : Int) ≤ maxD := by push_cast; omega
        rw [if_neg h2, if_neg hko]
    · have hwd : walkDir c3pe c3ra (Fs.dir (str "mid") true [chainTree k])
          (pjoin base (str "mid")) (str "web-ui") (str "github.com/datadog/web-ui")
          (depth + 1) maxD = none := by
        simp only [walkDir]
        rw [if_pos (show depth + 1 > maxD by omega)]
      have hko : ¬ depth + ((k + 1 : Nat) : Int) ≤ maxD := by push_cast; omega
      rw [hwd, if_neg hko]

/-- C3 (counterexample): a checkout that is a direct child of the search
root sits at `d = 1` directory descent; the claim says `maxDepth = 0 < d`
must miss it, but the walk name-checks the children of a depth-0 directory
before recursing, so it is found. -/
theorem C3_counterexample :
    scanForRepo c3pe c3ra [] (str "github.com/datadog/web-ui") [str "/r"] 0
      (fun _ => c3tree) = some (str "/r/web-ui") := by decide

/-- C3 (amended): a checkout at `d = k + 1` directory descents below a
search root is found exactly when `maxDepth ≥ d - 1 = k` (one less than
the claim states): a directory at `maxDepth + 1` descents is still
inspected for a name match, but is not itself recursed into. -/
theorem C3_depth_boundary (k : Nat) (maxD : Int) (home base : JStr) :
    scanForRepo c3pe c3ra home (str "github.com/datadog/web-ui") [base] maxD
      (fun _ => chainRoot k) =
    if (k : Int) ≤ maxD then some (chainPath (expandTilde home base) k) else none := by
  have hw : walkDir c3pe c3ra (chainRoot k) (expandTilde home base) (str "web-ui")
      (str "github.com/datadog/web-ui") 0 maxD =
      if (k : Int) ≤ maxD then some (chainPath (expandTilde home base) k) else none := by
    by_cases h0 : (0 : Int) ≤ maxD
    · simp only [chainRoot, walkDir]
      rw [if_neg (show ¬ (0 : Int) > maxD by omega)]
      simp only [if_true]
      rw [walkEntries_chain k maxD 0 (expandTilde home base) h0]
      simp
    · simp only [chainRoot, walkDir]
      rw [if_pos (show (0 : Int) > maxD by omega), if_neg (show ¬ (k : Int) ≤ maxD by omega)]
  have hrn : extractRepoName (str "github.com/datadog/web-ui") = some (str "web-ui") := by
    decide
  simp only [scanForRepo, hrn]
  rw [if_neg (show ¬ str "web-ui" = [] by decide)]
  simp only [List.findSome?_cons, List.findSome?_nil]
  rw [hw]
  by_cases hk : (k : Int) ≤ maxD
  · rw [if_pos hk]
  · rw [if_neg hk]

mutual

/-- Every path returned by `walkDir` is the walk's directory joined with a
non-empty chain of child names, none of which is in `SKIP_DIRS`. -/
theorem walkDir_segs (pe : JStr → Bool) (ra : JStr → List JStr) (t : Fs)
    (dirPath repoName normalizedUrl : JStr) (depth maxDepth : Int) (p : JStr)
    (h : walkDir pe ra t dirPath repoName normalizedUrl depth maxDepth = some p) :
    ∃ segs : List JStr, segs ≠ [] ∧ (∀ s ∈ segs, SKIP_DIRS.contains s = false) ∧
      p = joinSegs dirPath segs := by
  rw [walkDir.eq_def] at h
  by_cases hdm : depth > maxDepth
  · rw [if_pos hdm] at h
    exact absurd h (by simp)
  · rw [if_neg hdm] at h
    cases t with
    | file n => exact absurd h (by simp)
    | dir name readable children =>
      cases readable with
      | false => simp at h
      | true =>
        simp only [if_true] at h
        exact walkEntries_segs pe ra children dirPath repoName normalizedUrl depth maxDepth p h

/-- The loop body of `walkDir` only returns paths made of non-skipped child
names. -/
theorem walkEntries_segs (pe : JStr → Bool) (ra : JStr → List JStr) (es : List Fs)
    (dirPath repoName normalizedUrl : JStr) (depth maxDepth : Int) (p : JStr)
    (h : walkEntries pe ra es dirPath repoName normalizedUrl depth maxDepth = some p) :
    ∃ segs : List JStr, segs ≠ [] ∧ (∀ s ∈ segs, SKIP_DIRS.contains s = false) ∧
      p = joinSegs dirPath segs := by
  cases es with
  | nil => simp [walkEntries] at h
  | cons e rest =>
    cases e with
    | file n =>
      simp only [walkEntries] at h
      exact walkEntries_segs pe ra rest dirPath repoName normalizedUrl depth maxDepth p h
    | dir name readable children =>
      simp only [walkEntries] at h
      by_cases hskip : SKIP_DIRS.contains name = true
      · rw [if_pos hskip] at h
        exact walkEntries_segs pe ra rest dirPath repoName normalizedUrl depth maxDepth p h
      · rw [if_neg hskip] at h
        by_cases hname : jsToLower name = repoName ∧
            pe (pjoin (pjoin dirPath name) (str ".git")) = true ∧
            ((ra (pjoin dirPath name)).map normalizeRepoUrl).contains
              (some normalizedUrl) = true
        · rw [if_pos hname] at h
          obtain rfl : p = pjoin dirPath name := (Option.some_inj.mp h).symm
          refine ⟨[name], by simp, ?_, rfl⟩
          intro s hs
          rw [List.mem_singleton] at hs
          subst hs
          simpa using hskip
        · rw [if_neg hname] at h
          cases hwd : walkDir pe ra (Fs.dir name readable children) (pjoin dirPath name)
              repoName normalizedUrl (depth + 1) maxDepth with
          | some r =>
            simp only [hwd] at h
            obtain ⟨segs, hne, hall, hp⟩ := walkDir_segs pe ra
              (Fs.dir name readable children) (pjoin dirPath name) repoName normalizedUrl
              (depth + 1) maxDepth r hwd
            refine ⟨name :: segs, by simp, ?_, ?_⟩
            · intro s hs
              rcases List.mem_cons.mp hs with rfl | hs'
              · simpa using hskip
              · exact hall s hs'
            · have hrp : r = p := Option.some_inj.mp h
              rw [← hrp, hp]
              rfl
          | none =>
            simp only [hwd] at h
            exact walkEntries_segs pe ra rest dirPath repoName normalizedUrl depth maxDepth p h

end

/-- C8: Skip-Set enforcement.  For every directory tree, search-root list
and depth bound, any path `scanForRepo` returns decomposes as one of the
search roots (tilde-expanded) joined with a non-empty chain of walked child
directory names, none of which lies in `SKIP_DIRS` — a child whose name is
in the Skip-Set is skipped before the name-match check and before
recursion, at every depth, so no returned repository sits inside one. -/
theorem C8_skip_set (pe : JStr → Bool) (ra : JStr → List JStr) (home nu : JStr)
    (paths : List JStr) (maxD : Int) (fsAt : JStr → Fs) (p : JStr)
    (h : scanForRepo pe ra home nu paths maxD fsAt = some p) :
    ∃ root ∈ paths, ∃ segs : List JStr, segs ≠ [] ∧
      (∀ s ∈ segs, SKIP_DIRS.contains s = false) ∧
      p = joinSegs (expandTilde home root) segs := by
  rw [scanForRepo.eq_def] at h
  cases hrn : extractRepoName nu with
  | none =>
    rw [hrn] at h
    exact absurd h (by simp)
  | some rn =>
    simp only [hrn] at h
    by_cases hrne : rn = []
    · rw [if_pos hrne] at h
      exact absurd h (by simp)
    · rw [if_neg hrne] at h
      obtain ⟨root, hroot, hf⟩ := findSome?_eq_some _ paths p h
      obtain ⟨segs, h1, h2, h3⟩ := walkDir_segs pe ra (fsAt (expandTilde home root))
        (expandTilde home root) rn nu 0 maxD p hf
      exact ⟨root, hroot, segs, h1, h2, h3⟩

/-- Witness for C8: a successful scan whose returned path decomposes into
non-skipped segments below the search root. -/
theorem C8_skip_set_witness :
    ∃ root ∈ [str "/r"], ∃ segs : List JStr, segs ≠ [] ∧
      (∀ s ∈ segs, SKIP_DIRS.contains s = false) ∧
      str "/r/web-ui" = joinSegs (expandTilde [] root) segs :=
  C8_skip_set c3pe c3ra [] (str "github.com/datadog/web-ui") [str "/r"] 0
    (fun _ => c3tree) (str "/r/web-ui") (by decide)

/-! ## Claim theorems: cache and orchestrator (C1, C2, C9, C10) -/

/-- C1: round-trip through the cache.  For a non-empty identifier `X` and a
non-empty existing path `P` whose remotes, each normalized, include `X`,
storing `(X, P)` and then resolving any raw input that normalizes to `X`
returns `P` — for every filesystem oracle and configuration, so the scan is
never consulted.  (The cache write must succeed, as in the source, where a
failing `writeFileSync` would throw.) -/
theorem C1_cache_roundtrip (w : World) (X P raw : JStr)
    (hwr : w.cacheWritable = true) (hXne : ¬ X = []) (hPne : ¬ P = [])
    (hnorm : normalizeRepoUrl raw = some X)
    (hex : w.pathExists P = true)
    (hrem : ((w.remotesAt P).map normalizeRepoUrl).contains (some X) = true) :
    cacheStore w.cacheWritable w.cache X P w.now = .ok (updateA w.cache X ⟨P, w.now⟩) ∧
    ∀ g : JStr → Fs, ∀ cfg : Config,
      resolveRepo { w with cache := updateA w.cache X ⟨P, w.now⟩, fsAt := g, config := cfg }
        raw = .ok (some P, updateA w.cache X ⟨P, w.now⟩) := by
  constructor
  · simp [cacheStore, saveCache, hwr]
  · intro g cfg
    have hex' : ¬ w.pathExists P = false := by
      rw [hex]
      simp
    have hrem' : ¬ ((w.remotesAt P).map normalizeRepoUrl).contains (some X) = false := by
      rw [hrem]
      simp
    have hcl : cacheLookup
        { w with cache := updateA w.cache X ⟨P, w.now⟩, fsAt := g, config := cfg } X =
        .ok (some P, updateA w.cache X ⟨P, w.now⟩) := by
      simp only [cacheLookup, lookupA_updateA]
      rw [if_neg hex', if_neg hrem']
      simp [saveCache, hwr, updateA_updateA]
    simp only [resolveRepo, hnorm]
    rw [if_neg hXne]
    simp only [hcl]
    rw [if_neg hPne]

/-- Witness for C1: a concrete store-then-resolve round trip that ignores
the filesystem oracle. -/
theorem C1_cache_roundtrip_witness :
    cacheStore w1.cacheWritable w1.cache (str "github.com/datadog/web-ui")
        (str "/repos/web-ui") w1.now =
      .ok (updateA w1.cache (str "github.com/datadog/web-ui")
        ⟨str "/repos/web-ui", w1.now⟩) ∧
    resolveRepo { w1 with
        cache := updateA w1.cache (str "github.com/datadog/web-ui")
          ⟨str "/repos/web-ui", w1.now⟩,
        fsAt := fun _ => Fs.file [], config := ⟨some [], some 0⟩ }
      (str "git@github.com:DataDog/web-ui.git") =
      .ok (some (str "/repos/web-ui"),
        updateA w1.cache (str "github.com/datadog/web-ui")
          ⟨str "/repos/web-ui", w1.now⟩) := by
  have h := C1_cache_roundtrip w1 (str "github.com/datadog/web-ui") (str "/repos/web-ui")
    (str "git@github.com:DataDog/web-ui.git") rfl (by decide) (by decide) (by decide)
    (by decide) (by decide)
  exact ⟨h.1, h.2 (fun _ => Fs.file []) ⟨some [], some 0⟩⟩

/-- C2: stale-entry eviction.  If the cached entry's path no longer exists,
or its re-read remotes no longer normalize to a set containing the
identifier, `cacheLookup` returns `null` and the re-persisted mapping has
the entry removed (deleted, not marked). -/
theorem C2_stale_eviction (w : World) (id : JStr) (entry : CEntry)
    (hwr : w.cacheWritable = true)
    (hent : lookupA w.cache id = some entry)
    (hstale : w.pathExists entry.path = false ∨
      ((w.remotesAt entry.path).map normalizeRepoUrl).contains (some id) = false) :
    cacheLookup w id = .ok (none, eraseA w.cache id) ∧
    lookupA (eraseA w.cache id) id = none := by
  refine ⟨?_, lookupA_eraseA w.cache id⟩
  rcases hstale with hs | hs
  · simp only [cacheLookup, hent]
    rw [if_pos hs]
    simp [saveCache, hwr]
  · by_cases hpe : w.pathExists entry.path = false
    · simp only [cacheLookup, hent]
      rw [if_pos hpe]
      simp [saveCache, hwr]
    · simp only [cacheLookup, hent]
      rw [if_neg hpe, if_pos hs]
      simp [saveCache, hwr]

/-- Witness for C2: a concrete eviction of an entry whose path is gone. -/
theorem C2_stale_eviction_witness :
    cacheLookup w2 (str "github.com/gone/gone") =
      .ok (none, eraseA w2.cache (str "github.com/gone/gone")) ∧
    lookupA (eraseA w2.cache (str "github.com/gone/gone")) (str "github.com/gone/gone") =
      none :=
  C2_stale_eviction w2 (str "github.com/gone/gone") ⟨str "/tmp/nope", str "t0"⟩
    rfl (by decide) (Or.inl rfl)

/-- C9 (counterexample): the claim's "only actionable error" condition does
not raise — with `GIT_SEARCH_PATHS: []` (zero valid roots) `resolveRepo`
returns a plain not-found — while a listed "degrades to null" path does
raise: a stale-entry eviction whose cache-file write fails propagates an
exception. -/
theorem C9_counterexample :
    w0roots.config.gitSearchPaths = some [] ∧
    resolveRepo w0roots (str "github.com/datadog/web-ui") = .ok (none, []) ∧
    resolveRepo wraise (str "github.com/a/b") = .error () := by
  refine ⟨rfl, rfl, rfl⟩

/-- C9 (amended): whenever the cache-file write succeeds, `resolveRepo`
never raises: a configuration with zero valid roots (and any unresolvable
default) degrades to the not-found result like every other failure path.
The only raising path is a failing cache-file write during eviction,
refresh, or store.  (An absent home directory aborts at module load, before
`resolveRepo` exists.) -/
theorem C9_no_error_when_writable (w : World) (url : JStr)
    (hwr : w.cacheWritable = true) : exceptOk (resolveRepo w url) = true := by
  cases hn : normalizeRepoUrl url with
  | none => simp [resolveRepo, hn, exceptOk]
  | some n =>
    by_cases hne : n = []
    · simp [resolveRepo, hn, hne, exceptOk]
    · obtain ⟨v, hv⟩ := cacheLookup_isOk w n hwr
      simp only [resolveRepo, hn]
      rw [if_neg hne]
      obtain ⟨p, c1⟩ := v
      simp only [hv]
      cases p with
      | none =>
        obtain ⟨v2, hv2⟩ := resolveScan_isOk w c1 n hwr
        show exceptOk (resolveScan w c1 n) = true
        rw [hv2]
        rfl
      | some q =>
        show exceptOk (if q = [] then resolveScan w c1 n else Except.ok (some q, c1)) = true
        by_cases hq : q = []
        · obtain ⟨v2, hv2⟩ := resolveScan_isOk w c1 n hwr
          rw [if_pos hq, hv2]
          rfl
        · rw [if_neg hq]
          rfl

/-- Witness for C9: a concrete world with zero roots and a writable cache
file resolves without raising. -/
theorem C9_no_error_when_writable_witness :
    exceptOk (resolveRepo { w0roots with cacheWritable := true }
      (str "github.com/datadog/web-ui")) = true :=
  C9_no_error_when_writable { w0roots with cacheWritable := true }
    (str "github.com/datadog/web-ui") rfl

/-- C10: a configured `GIT_SEARCH_MAX_DEPTH` of 0 is discarded by the
falsiness check `config.GIT_SEARCH_MAX_DEPTH || 4`: resolution behaves
exactly as if the configured depth were the default 4. -/
theorem C10_depth_zero_default (w : World) (url : JStr)
    (h : w.config.gitSearchMaxDepth = some 0) :
    resolveRepo w url =
      resolveRepo { w with config := { w.config with gitSearchMaxDepth := some 4 } } url := by
  have hscan : ∀ c1 n, resolveScan w c1 n =
      resolveScan { w with config := { w.config with gitSearchMaxDepth := some 4 } } c1 n := by
    intro c1 n
    simp [resolveScan, h]
  have hcl : ∀ n, cacheLookup
      { w with config := { w.config with gitSearchMaxDepth := some 4 } } n =
      cacheLookup w n := fun _ => rfl
  cases hn : normalizeRepoUrl url with
  | none => simp [resolveRepo, hn]
  | some n =>
    by_cases hne : n = []
    · simp [resolveRepo, hn, hne]
    · simp only [resolveRepo, hn, hcl]
      rw [if_neg hne, if_neg hne]
      cases hv : cacheLookup w n with
      | error e => rfl
      | ok v =>
        obtain ⟨p, c1⟩ := v
        cases p with
        | none => exact hscan c1 n
        | some q =>
          by_cases hq : q = []
          · simp only [if_pos hq]
            exact hscan c1 n
          · simp only [if_neg hq]

/-- Witness for C10: with configured depth 0 a checkout three descents below
the root is still found (the scan effectively ran with depth 4, not 0), and
the run equals the explicitly-depth-4 run. -/
theorem C10_depth_zero_default_witness :
    resolveRepo wdepth0 (str "github.com/datadog/web-ui") =
      resolveRepo { wdepth0 with
        config := { wdepth0.config with gitSearchMaxDepth := some 4 } }
        (str "github.com/datadog/web-ui") ∧
    resolveRepo wdepth0 (str "github.com/datadog/web-ui") =
      .ok (some (str "/r/mid/mid/web-ui"),
        [(str "github.com/datadog/web-ui", ⟨str "/r/mid/mid/web-ui", []⟩)]) :=
  ⟨C10_depth_zero_default wdepth0 (str "github.com/datadog/web-ui") rfl, rfl⟩

end RepoResolver
